import Mathlib

/-!
Shallow embedding of the relational-operator layer (`src/db/Query.cpp`):
`projection`, `filter`, `aggregate` and `join` over sequentially scanned
tuple stores.  A tuple store is modelled as a Lean list of tuples (the
forward cursor of the C++ code visits tuples in list order and `insertTuple`
appends); C++ `double` is idealised as `Rat`; C++ exceptions become
`Except DbError`.  Hash-map iteration order (`std::unordered_map` /
`std::unordered_multimap`), which is unspecified in the source, is modelled
canonically as first-insertion order via association lists; no claim below
depends on that order.
-/

namespace db

/-- Error taxonomy of the operator layer (§7 of the design: `FieldNotFound`,
`UnsupportedComparison`, `UnsupportedOperator`, `UnsupportedJoinPredicate`,
`NonNumericField`), standing in for the `std::runtime_error`s thrown by the
C++ code and by the schema lookup. -/
inductive DbError where
  | FieldNotFound
  | UnsupportedComparison
  | UnsupportedOperator
  | UnsupportedJoinPredicate
  | NonNumericField
deriving DecidableEq, Repr

/-- The tagged scalar `field_t`: one of integer, floating point (idealised as
`Rat`) or text.  Equality is per-variant structural equality. -/
inductive field_t where
  | intF : Int → field_t
  | dblF : Rat → field_t
  | strF : String → field_t
deriving DecidableEq, Repr

/-- A tuple is an ordered sequence of field values (`db::Tuple`). -/
abbrev Tuple := List field_t

/-- The schema is modelled by its ordered list of field names (`db::TupleDesc`);
only name-to-index resolution is needed by the operators. -/
abbrev TupleDesc := List String

/-- Modelled from the spec: `TupleDesc::index_of` is declared in a header
that is not part of the visible source; per the spec it "maps field names to
positional indices" and "fails (NotFound) if the name is absent".  We return
the first index of the name, `none` when absent (the caller turns `none`
into `DbError.FieldNotFound`). -/
def index_of (sch : TupleDesc) (n : String) : Option Nat :=
  match sch with
  | [] => none
  | s :: rest => if s = n then some 0 else (index_of rest n).map (· + 1)

/-- Field access `Tuple::get_field` at an index.  All call sites in `Query.cpp` pass an
index obtained from `index_of` on the store's schema, so the index is in
range whenever tuples conform to the schema; out-of-range access is given
the harmless default `intF 0`. -/
def get_field (t : Tuple) (i : Nat) : field_t :=
  t.getD i (field_t.intF 0)

/-- Comparison operators of `db::PredicateOp`. -/
inductive PredicateOp where
  | EQ | NE | LT | LE | GT | GE
deriving DecidableEq, Repr

/-- One filter clause (`db::FilterPredicate`): field name, comparison
operator, literal field value. -/
structure FilterPredicate where
  field_name : String
  op : PredicateOp
  value : field_t
deriving DecidableEq, Repr

/-- Answers `true` iff the two field values carry the same variant. -/
def sameVariant : field_t → field_t → Bool
  | .intF _, .intF _ => true
  | .dblF _, .dblF _ => true
  | .strF _, .strF _ => true
  | _, _ => false

/-- Modelled from the spec: the comparison operators of `field_t` live in a
header that is not part of the visible source; per the spec, field values
"support equality and total order" within a variant, and "comparing a field
to a literal of an incompatible variant is a defined error
(UnsupportedComparison), not a silent false match". -/
def fieldCompare : field_t → field_t → Except DbError Ordering
  | .intF a, .intF b => .ok (compare a b)
  | .dblF a, .dblF b => .ok (compare a b)
  | .strF a, .strF b => .ok (compare a b)
  | _, _ => .error .UnsupportedComparison

/-- One comparison of the `switch (p.op)` in `db::filter`: apply the
requested operator to the tuple's field value and the clause literal. -/
def evalPred (op : PredicateOp) (a b : field_t) : Except DbError Bool :=
  match fieldCompare a b with
  | .error e => .error e
  | .ok c =>
    .ok (match op with
      | .EQ => c = Ordering.eq
      | .NE => ¬ (c = Ordering.eq)
      | .LT => c = Ordering.lt
      | .LE => ¬ (c = Ordering.gt)
      | .GT => c = Ordering.gt
      | .GE => ¬ (c = Ordering.lt))

/-- The inner clause loop of `db::filter` for one tuple: clauses are
evaluated left to right; a clause resolves its field name only when reached;
the loop exits on the first clause that evaluates to false (`break`), and a
lookup failure or comparison failure aborts with the error. -/
def matchTuple (sch : TupleDesc) (t : Tuple) : List FilterPredicate → Except DbError Bool
  | [] => .ok true
  | p :: rest =>
    match index_of sch p.field_name with
    | none => .error .FieldNotFound
    | some i =>
      match evalPred p.op (get_field t i) p.value with
      | .error e => .error e
      | .ok false => .ok false
      | .ok true => matchTuple sch t rest

/-- The operator `db::filter`: keep, in input order, every tuple whose clauses all match. -/
def filter (sch : TupleDesc) (ts : List Tuple) (pred : List FilterPredicate) :
    Except DbError (List Tuple) :=
  match ts with
  | [] => .ok []
  | t :: rest =>
    match matchTuple sch t pred with
    | .error e => .error e
    | .ok true =>
      match filter sch rest pred with
      | .error e => .error e
      | .ok out => .ok (t :: out)
    | .ok false => filter sch rest pred

/-- The inner name loop of `db::projection` for one tuple: resolve each
requested name (the first absent name aborts with `FieldNotFound`) and emit
the corresponding fields in the requested order. -/
def projectTuple (sch : TupleDesc) (t : Tuple) : List String → Except DbError Tuple
  | [] => .ok []
  | n :: rest =>
    match index_of sch n with
    | none => .error .FieldNotFound
    | some i =>
      match projectTuple sch t rest with
      | .error e => .error e
      | .ok fs => .ok (get_field t i :: fs)

/-- The operator `db::projection`: one projected tuple per input tuple, in input order.
Name resolution happens inside the tuple loop, exactly as in the source. -/
def projection (sch : TupleDesc) (ts : List Tuple) (names : List String) :
    Except DbError (List Tuple) :=
  match ts with
  | [] => .ok []
  | t :: rest =>
    match projectTuple sch t names with
    | .error e => .error e
    | .ok pt =>
      match projection sch rest names with
      | .error e => .error e
      | .ok out => .ok (pt :: out)

/-- Aggregate operators of `db::AggregateOp`. -/
inductive AggregateOp where
  | SUM | AVG | MIN | MAX | COUNT
deriving DecidableEq, Repr

/-- The `db::Aggregate` descriptor: aggregated field, operator, optional
group-by field. -/
structure Aggregate where
  field : String
  op : AggregateOp
  group : Option String
deriving DecidableEq, Repr

/-- The `std::visit` in `db::aggregate`: numeric variants convert to the
accumulator type (C++ `double`, idealised as `Rat`); a text field raises
`NonNumericField`. -/
def toNumeric : field_t → Except DbError Rat
  | .intF i => .ok (i : Rat)
  | .dblF q => .ok q
  | .strF _ => .error .NonNumericField

/-- Association-list update keyed by a field value, modelling
`std::unordered_map` access: the entry for `k` is rewritten in place when
present and appended when absent (first-insertion order stands in for the
unspecified hash iteration order). -/
def updateA {α : Type} (l : List (field_t × α)) (k : field_t) (f : Option α → α) :
    List (field_t × α) :=
  match l with
  | [] => [(k, f none)]
  | (k2, v) :: rest =>
    if k2 = k then (k2, f (some v)) :: rest else (k2, v) :: updateA rest k f

/-- Association-list lookup keyed by a field value. -/
def lookupA {α : Type} (l : List (field_t × α)) (k : field_t) : Option α :=
  match l with
  | [] => none
  | (k2, v) :: rest => if k2 = k then some v else lookupA rest k

/-- The local accumulator state of `db::aggregate`: the two hash maps
`groupResults` / `groupCounts`, and the non-grouped running values.  The C++
sentinels `numeric_limits<double>::max()` / `lowest()` for the running
min/max are modelled by `Option Rat` (`none` = untouched), which the
finalization can distinguish exactly as the C++ code does via `hasValues`. -/
structure AggState where
  groupResults : List (field_t × Rat)
  groupCounts : List (field_t × Int)
  globalResult : Rat
  globalCount : Int
  minResult : Option Rat
  maxResult : Option Rat
  hasValues : Bool
deriving DecidableEq, Repr

/-- Initial accumulator state of `db::aggregate`. -/
def initAgg : AggState :=
  { groupResults := [], groupCounts := [], globalResult := 0, globalCount := 0,
    minResult := none, maxResult := none, hasValues := false }

/-- One iteration of the accumulation loop of `db::aggregate` on one tuple:
convert the aggregated field to a number (aborting on a text field), then
fold it into the state according to the operator and the presence of a
group-by index `gi`.  Grouped `COUNT` updates only `groupCounts`, exactly as
in the source. -/
def aggStep (op : AggregateOp) (fi : Nat) (gi : Option Nat) (st : AggState) (t : Tuple) :
    Except DbError AggState :=
  match toNumeric (get_field t fi) with
  | .error e => .error e
  | .ok v =>
    let st1 := { st with hasValues := true }
    match gi with
    | some g =>
      let k := get_field t g
      match op with
      | .SUM | .AVG =>
        .ok { st1 with
          groupResults := updateA st1.groupResults k (fun o => o.getD 0 + v),
          groupCounts := updateA st1.groupCounts k (fun o => o.getD 0 + 1) }
      | .MIN =>
        .ok { st1 with
          groupResults := updateA st1.groupResults k
            (fun o => match o with | none => v | some c => if v < c then v else c) }
      | .MAX =>
        .ok { st1 with
          groupResults := updateA st1.groupResults k
            (fun o => match o with | none => v | some c => if v > c then v else c) }
      | .COUNT =>
        .ok { st1 with groupCounts := updateA st1.groupCounts k (fun o => o.getD 0 + 1) }
    | none =>
      match op with
      | .SUM | .AVG =>
        .ok { st1 with globalResult := st1.globalResult + v,
                       globalCount := st1.globalCount + 1 }
      | .MIN =>
        let m2 := match st1.minResult with | none => v | some m => min m v
        .ok { st1 with minResult := some m2 }
      | .MAX =>
        let m2 := match st1.maxResult with | none => v | some m => max m v
        .ok { st1 with maxResult := some m2 }
      | .COUNT =>
        .ok { st1 with globalCount := st1.globalCount + 1 }

/-- The accumulation loop of `db::aggregate` over the whole input store. -/
def aggLoop (op : AggregateOp) (fi : Nat) (gi : Option Nat) :
    List Tuple → AggState → Except DbError AggState
  | [], st => .ok st
  | t :: ts, st =>
    match aggStep op fi gi st t with
    | .error e => .error e
    | .ok st2 => aggLoop op fi gi ts st2

/-- C++ `static_cast<int>` on a `double`: truncation toward zero, on the
`Rat` idealisation. -/
def ratTrunc (q : Rat) : Int := q.num.tdiv (q.den : Int)

/-- Grouped finalization of `db::aggregate`: iterate `groupResults` (so an
operator that never wrote to `groupResults` emits nothing) and emit
`(groupKey, field_t(outputValue))`, dividing by the count for `AVG` and
substituting the count for `COUNT`; `outputValue` is a C++ `double`, so the
emitted aggregate field is the floating-point variant. -/
def finalizeGrouped (op : AggregateOp) (st : AggState) : List Tuple :=
  st.groupResults.map (fun p =>
    let cnt : Int := (lookupA st.groupCounts p.1).getD 0
    let outVal : Rat :=
      match op with
      | .AVG => p.2 / (cnt : Rat)
      | .COUNT => (cnt : Rat)
      | _ => p.2
    [p.1, field_t.dblF outVal])

/-- Non-grouped finalization of `db::aggregate`: `SUM`, `MIN` and `MAX` are
cast to `int` (`MIN`/`MAX` fall back to `0` when no tuple was seen), `AVG`
stays a `double` (`0` when the count is `0`), `COUNT` is the `int` count. -/
def finalizeGlobal (op : AggregateOp) (st : AggState) : field_t :=
  match op with
  | .SUM => .intF (ratTrunc st.globalResult)
  | .AVG => .dblF (if st.globalCount > 0 then st.globalResult / (st.globalCount : Rat) else 0)
  | .MIN => .intF (match st.minResult with | some m => ratTrunc m | none => 0)
  | .MAX => .intF (match st.maxResult with | some m => ratTrunc m | none => 0)
  | .COUNT => .intF st.globalCount

/-- The operator `db::aggregate`: resolve the aggregated field (and the group-by field
when present), run the accumulation loop, then finalize — one `(group,
value)` tuple per `groupResults` entry in the grouped path, one single-field
tuple in the non-grouped path. -/
def aggregate (sch : TupleDesc) (ts : List Tuple) (agg : Aggregate) :
    Except DbError (List Tuple) :=
  match index_of sch agg.field with
  | none => .error .FieldNotFound
  | some fi =>
    match agg.group with
    | some gname =>
      match index_of sch gname with
      | none => .error .FieldNotFound
      | some gi =>
        match aggLoop agg.op fi (some gi) ts initAgg with
        | .error e => .error e
        | .ok st => .ok (finalizeGrouped agg.op st)
    | none =>
      match aggLoop agg.op fi none ts initAgg with
      | .error e => .error e
      | .ok st => .ok [[finalizeGlobal agg.op st]]

/-- The `db::JoinPredicate` descriptor: left field name, operator, right field name. -/
structure JoinPredicate where
  left : String
  op : PredicateOp
  right : String
deriving DecidableEq, Repr

/-- The equality-join strategy of `db::join`: a multimap over the left store
keyed by the left join field is probed once per right tuple; for each match
the combined tuple is all left fields followed by all right fields except
the right join field (`eraseIdx ri`).  The multimap's bucket order is
modelled as left-store order. -/
def joinEQ (left right : List Tuple) (li ri : Nat) : List Tuple :=
  right.flatMap (fun tr =>
    (left.filter (fun tl => get_field tl li = get_field tr ri)).map
      (fun tl => tl ++ tr.eraseIdx ri))

/-- The inequality-join strategy of `db::join`: full nested loop, emitting
all left fields followed by all right fields (join field retained) for every
pair whose join-field values differ. -/
def joinNE (left right : List Tuple) (li ri : Nat) : List Tuple :=
  left.flatMap (fun tl =>
    (right.filter (fun tr => ¬ (get_field tl li = get_field tr ri))).map
      (fun tr => tl ++ tr))

/-- The operator `db::join`: both join field names are resolved up front (`FieldNotFound`
on a miss, left name first), then the strategy is chosen by the predicate
operator; operators other than `EQ` / `NE` raise `UnsupportedJoinPredicate`. -/
def join (lsch rsch : TupleDesc) (left right : List Tuple) (pred : JoinPredicate) :
    Except DbError (List Tuple) :=
  match index_of lsch pred.left with
  | none => .error .FieldNotFound
  | some li =>
    match index_of rsch pred.right with
    | none => .error .FieldNotFound
    | some ri =>
      match pred.op with
      | .EQ => .ok (joinEQ left right li ri)
      | .NE => .ok (joinNE left right li ri)
      | _ => .error .UnsupportedJoinPredicate

/-- Specification-side view of the qualifying pairs of the equality join:
for each right tuple, the left tuples with an equal join key, as pairs, in
the emission order of `joinEQ`. -/
def eqPairs (left right : List Tuple) (li ri : Nat) : List (Tuple × Tuple) :=
  right.flatMap (fun tr =>
    (left.filter (fun tl => get_field tl li = get_field tr ri)).map
      (fun tl => (tl, tr)))

/-- Specification-side view of the equal-key pairs that the inequality join
skips: for each left tuple, the right tuples with an equal join key. -/
def eqAllPairs (left right : List Tuple) (li ri : Nat) : List (Tuple × Tuple) :=
  left.flatMap (fun tl =>
    (right.filter (fun tr => get_field tl li = get_field tr ri)).map
      (fun tr => (tl, tr)))

/-- Specification-side: does a tuple pass the whole clause list?  (`true`
exactly when the clause loop of `db::filter` answers `ok true`.) -/
def keepB (sch : TupleDesc) (pred : List FilterPredicate) (t : Tuple) : Bool :=
  match matchTuple sch t pred with
  | .ok true => true
  | _ => false

/-- Specification-side: the numeric values of the aggregated field of every
tuple of the store, left to right, with the first failure propagated —
exactly the sequence of values the accumulation loop folds. -/
def numValues (fi : Nat) : List Tuple → Except DbError (List Rat)
  | [] => .ok []
  | t :: ts =>
    match toNumeric (get_field t fi) with
    | .error e => .error e
    | .ok v =>
      match numValues fi ts with
      | .error e => .error e
      | .ok vs => .ok (v :: vs)

/-- Specification-side running minimum, mirroring `std::min` folding. -/
def optMin (o : Option Rat) (v : Rat) : Option Rat :=
  some (match o with | none => v | some m => min m v)

/-- Specification-side running maximum, mirroring `std::max` folding. -/
def optMax (o : Option Rat) (v : Rat) : Option Rat :=
  some (match o with | none => v | some m => max m v)

/-- Specification-side sum of a list of rationals. -/
def sumR : List Rat → Rat
  | [] => 0
  | v :: vs => v + sumR vs

/-- Specification-side: the numeric value of a tuple's aggregated field
(defaulting to `0` on a non-numeric field; only used under the hypothesis
that the accumulation succeeded, where the default is never taken). -/
def numValue (fi : Nat) (t : Tuple) : Rat :=
  match toNumeric (get_field t fi) with
  | .ok v => v
  | .error _ => 0

/-- Specification-side: the sum of the aggregated-field values of the
tuples belonging to group `k`. -/
def groupSum (fi gi : Nat) (k : field_t) (ts : List Tuple) : Rat :=
  sumR ((ts.filter (fun t => get_field t gi = k)).map (numValue fi))

/-- Specification-side: the single-field value a non-grouped aggregate emits
on an empty input store (`AVG` emits a floating-point `0`, the others an
integer `0`). -/
def emptyDefault : AggregateOp → field_t
  | .AVG => .dblF 0
  | _ => .intF 0

theorem matchTuple_append (sch : TupleDesc) (t : Tuple) (l1 l2 : List FilterPredicate) :
    matchTuple sch t (l1 ++ l2) =
      match matchTuple sch t l1 with
      | .ok true => matchTuple sch t l2
      | r => r := by
  induction l1 with
  | nil => simp [matchTuple]
  | cons p rest ih =>
    simp only [List.cons_append, matchTuple]
    cases hix : index_of sch p.field_name with
    | none => rfl
    | some i =>
      cases hev : evalPred p.op (get_field t i) p.value with
      | error e => simp [hev]
      | ok b => cases b <;> simp [hev, ih]

theorem matchTuple_nil_clauses (sch : TupleDesc) (t : Tuple) :
    matchTuple sch t [] = .ok true := rfl

theorem filter_nil_clauses (sch : TupleDesc) (ts : List Tuple) :
    filter sch ts [] = .ok ts := by
  induction ts with
  | nil => rfl
  | cons t rest ih => simp [filter, matchTuple, ih]

theorem keepB_true_iff (sch : TupleDesc) (pred : List FilterPredicate) (t : Tuple) :
    keepB sch pred t = true ↔ matchTuple sch t pred = .ok true := by
  unfold keepB
  cases h : matchTuple sch t pred with
  | error e => simp
  | ok b => cases b <;> simp

theorem filter_ok_eq (sch : TupleDesc) (pred : List FilterPredicate) :
    ∀ ts out, filter sch ts pred = .ok out → out = ts.filter (keepB sch pred) := by
  intro ts
  induction ts with
  | nil =>
    intro out h
    simp only [filter] at h
    cases h
    rfl
  | cons t rest ih =>
    intro out h
    simp only [filter] at h
    cases hm : matchTuple sch t pred with
    | error e => rw [hm] at h; cases h
    | ok b =>
      rw [hm] at h
      cases b with
      | false =>
        simp only [] at h
        have hout := ih out h
        simp [List.filter_cons, keepB, hm, hout]
      | true =>
        simp only [] at h
        cases hf : filter sch rest pred with
        | error e => rw [hf] at h; cases h
        | ok out2 =>
          rw [hf] at h
          cases h
          have hout := ih out2 hf
          simp [List.filter_cons, keepB, hm, hout]

theorem filter_all_ok (sch : TupleDesc) (pred : List FilterPredicate) :
    ∀ ts, (∀ t ∈ ts, ∃ b, matchTuple sch t pred = .ok b) →
      filter sch ts pred = .ok (ts.filter (keepB sch pred)) := by
  intro ts
  induction ts with
  | nil => intro _; rfl
  | cons t rest ih =>
    intro h
    obtain ⟨b, hb⟩ := h t (List.mem_cons_self t rest)
    have hrest := ih (fun u hu => h u (List.mem_cons_of_mem t hu))
    cases b with
    | false => simp [filter, hb, hrest, List.filter_cons, keepB]
    | true => simp [filter, hb, hrest, List.filter_cons, keepB]

theorem filter_error_lift (sch : TupleDesc) (pred : List FilterPredicate) (e : DbError) :
    ∀ pre t post, (∀ u ∈ pre, ∃ b, matchTuple sch u pred = .ok b) →
      matchTuple sch t pred = .error e →
      filter sch (pre ++ t :: post) pred = .error e := by
  intro pre
  induction pre with
  | nil => intro t post _ ht; simp [filter, ht]
  | cons u pre2 ih =>
    intro t post hpre ht
    obtain ⟨b, hb⟩ := hpre u (List.mem_cons_self u pre2)
    have hrec := ih t post (fun w hw => hpre w (List.mem_cons_of_mem u hw)) ht
    cases b with
    | false => simp [filter, hb, hrec]
    | true => simp [filter, hb, hrec]

theorem evalPred_incompatible (op : PredicateOp) (a b : field_t)
    (h : sameVariant a b = false) :
    evalPred op a b = .error .UnsupportedComparison := by
  cases a <;> cases b <;> simp [sameVariant] at h <;> rfl

/-- C8: for every input store and predicate list, a successful filter run
returns exactly the input tuples passing all clauses, unchanged and in
original relative order (a filtered-subsequence of the input); passing means
the left-to-right, short-circuit clause loop answers true; an empty
predicate list keeps every tuple. -/
theorem C8_filter_subsequence :
    (∀ (sch : TupleDesc) (ts : List Tuple), filter sch ts [] = .ok ts) ∧
    (∀ (sch : TupleDesc) (ts : List Tuple) (pred : List FilterPredicate)
       (out : List Tuple), filter sch ts pred = .ok out →
       out = ts.filter (keepB sch pred) ∧ out.Sublist ts) ∧
    (∀ (sch : TupleDesc) (pred : List FilterPredicate) (t : Tuple),
       keepB sch pred t = true ↔ matchTuple sch t pred = .ok true) := by
  refine ⟨filter_nil_clauses, ?_, keepB_true_iff⟩
  intro sch ts pred out h
  have := filter_ok_eq sch pred ts out h
  exact ⟨this, this ▸ List.filter_sublist ts⟩

/-- C8 witness: a concrete run of the filter on two tuples with one clause. -/
theorem C8_filter_subsequence_witness :
    filter ["x"] [[field_t.intF 1], [field_t.intF 2]] [] =
      .ok [[field_t.intF 1], [field_t.intF 2]] ∧
    ([[field_t.intF 2]] =
        List.filter (keepB ["x"] [⟨"x", PredicateOp.GT, field_t.intF 1⟩])
          [[field_t.intF 1], [field_t.intF 2]] ∧
      List.Sublist [[field_t.intF 2]] [[field_t.intF 1], [field_t.intF 2]]) :=
  ⟨C8_filter_subsequence.1 ["x"] [[field_t.intF 1], [field_t.intF 2]],
   C8_filter_subsequence.2.1 ["x"] [[field_t.intF 1], [field_t.intF 2]]
     [⟨"x", PredicateOp.GT, field_t.intF 1⟩] [[field_t.intF 2]] rfl⟩

/-- C2 counterexample: the claim quantifies over every clause of the
predicate, but a clause that is never reached (because an earlier clause
already failed for the tuple) performs no comparison: with an
int-vs-string literal in the second clause and a failing first clause, the
filter returns `ok []` rather than failing with `UnsupportedComparison`. -/
theorem C2_counterexample :
    sameVariant (field_t.intF 1) (field_t.strF "s") = false ∧
    filter ["x"] [[field_t.intF 1]]
      [⟨"x", PredicateOp.EQ, field_t.intF 2⟩, ⟨"x", PredicateOp.EQ, field_t.strF "s"⟩]
      = .ok [] :=
  ⟨rfl, rfl⟩

/-- C2 (amended): comparing a field to a literal of an incompatible variant
is a defined `UnsupportedComparison` error, never a silent false match, for
every clause that is actually reached by the left-to-right short-circuit
evaluation: the comparison itself always errors, a reached incompatible
clause makes the tuple's clause loop error, and the error aborts the whole
filter call once the tuple is reached. -/
theorem C2_incompatible_comparison :
    (∀ (op : PredicateOp) (a b : field_t), sameVariant a b = false →
       evalPred op a b = .error .UnsupportedComparison) ∧
    (∀ (sch : TupleDesc) (t : Tuple) (cpre : List FilterPredicate)
       (nm : String) (op : PredicateOp) (lit : field_t)
       (rest : List FilterPredicate) (i : Nat),
       matchTuple sch t cpre = .ok true →
       index_of sch nm = some i →
       sameVariant (get_field t i) lit = false →
       matchTuple sch t (cpre ++ ⟨nm, op, lit⟩ :: rest) = .error .UnsupportedComparison) ∧
    (∀ (sch : TupleDesc) (pre : List Tuple) (t : Tuple) (post : List Tuple)
       (clauses : List FilterPredicate),
       (∀ u ∈ pre, ∃ b, matchTuple sch u clauses = .ok b) →
       matchTuple sch t clauses = .error .UnsupportedComparison →
       filter sch (pre ++ t :: post) clauses = .error .UnsupportedComparison) := by
  refine ⟨evalPred_incompatible, ?_, fun sch pre t post cl h1 h2 =>
    filter_error_lift sch cl .UnsupportedComparison pre t post h1 h2⟩
  intro sch t cpre nm op lit rest i hpre hix hbad
  rw [matchTuple_append, hpre]
  simp [matchTuple, hix, evalPred_incompatible op _ lit hbad]

/-- C2 witness: a reached int-vs-string comparison errors, at the clause
level and through a whole filter call. -/
theorem C2_incompatible_comparison_witness :
    evalPred PredicateOp.EQ (field_t.intF 1) (field_t.strF "s")
      = .error .UnsupportedComparison ∧
    matchTuple ["x"] [field_t.intF 1]
      ([] ++ (⟨"x", PredicateOp.EQ, field_t.strF "s"⟩ : FilterPredicate) :: [])
      = .error .UnsupportedComparison ∧
    filter ["x"] ([] ++ [field_t.intF 1] :: [])
      [⟨"x", PredicateOp.EQ, field_t.strF "s"⟩]
      = .error .UnsupportedComparison :=
  ⟨C2_incompatible_comparison.1 PredicateOp.EQ (field_t.intF 1) (field_t.strF "s") rfl,
   C2_incompatible_comparison.2.1 ["x"] [field_t.intF 1] [] "x" PredicateOp.EQ
     (field_t.strF "s") [] 0 rfl rfl rfl,
   C2_incompatible_comparison.2.2 ["x"] [] [field_t.intF 1] []
     [⟨"x", PredicateOp.EQ, field_t.strF "s"⟩]
     (fun u hu => absurd hu (List.not_mem_nil u)) rfl⟩

/-- C10: clause field names are resolved per tuple only when the clause is
reached: once an earlier prefix of clauses has already failed for a tuple,
appending any further clauses (absent field names included) leaves the
tuple's evaluation at `ok false`, and a filter over an empty store returns
`ok []` whatever names the predicate mentions. -/
theorem C10_short_circuit_resolution :
    (∀ (sch : TupleDesc) (pred : List FilterPredicate), filter sch [] pred = .ok []) ∧
    (∀ (sch : TupleDesc) (t : Tuple) (l1 l2 : List FilterPredicate),
       matchTuple sch t l1 = .ok false →
       matchTuple sch t (l1 ++ l2) = .ok false) ∧
    (∀ (sch : TupleDesc) (ts : List Tuple) (l1 l2 : List FilterPredicate),
       (∀ t ∈ ts, matchTuple sch t l1 = .ok false) →
       filter sch ts (l1 ++ l2) = .ok []) := by
  have h2 : ∀ (sch : TupleDesc) (t : Tuple) (l1 l2 : List FilterPredicate),
      matchTuple sch t l1 = .ok false → matchTuple sch t (l1 ++ l2) = .ok false := by
    intro sch t l1 l2 h
    rw [matchTuple_append, h]
  refine ⟨fun sch pred => rfl, h2, ?_⟩
  intro sch ts l1 l2 h
  induction ts with
  | nil => rfl
  | cons t rest ih =>
    have ht := h2 sch t l1 l2 (h t (List.mem_cons_self t rest))
    have hrest := ih (fun u hu => h u (List.mem_cons_of_mem t hu))
    simp [filter, ht, hrest]

theorem projectTuple_ok (sch : TupleDesc) (t : Tuple) :
    ∀ names pt, projectTuple sch t names = .ok pt →
      pt = names.map (fun n => get_field t ((index_of sch n).getD 0)) := by
  intro names
  induction names with
  | nil =>
    intro pt h
    simp only [projectTuple] at h
    cases h
    rfl
  | cons n rest ih =>
    intro pt h
    simp only [projectTuple] at h
    cases hix : index_of sch n with
    | none => rw [hix] at h; cases h
    | some i =>
      rw [hix] at h
      cases hr : projectTuple sch t rest with
      | error e => rw [hr] at h; cases h
      | ok fs =>
        rw [hr] at h
        cases h
        simp [hix, ih fs hr]

theorem projectTuple_absent (sch : TupleDesc) (t : Tuple) :
    ∀ names, (∃ n ∈ names, index_of sch n = none) →
      projectTuple sch t names = .error .FieldNotFound := by
  intro names
  induction names with
  | nil => rintro ⟨n, hn, _⟩; exact absurd hn (List.not_mem_nil n)
  | cons n rest ih =>
    rintro ⟨m, hm, hnone⟩
    cases hm with
    | head => simp [projectTuple, hnone]
    | tail _ hm2 =>
      cases hix : index_of sch n with
      | none => simp [projectTuple, hix]
      | some i => simp [projectTuple, hix, ih ⟨m, hm2, hnone⟩]

theorem projection_ok_eq (sch : TupleDesc) (names : List String) :
    ∀ ts out, projection sch ts names = .ok out →
      out = ts.map (fun t => names.map (fun n => get_field t ((index_of sch n).getD 0))) := by
  intro ts
  induction ts with
  | nil =>
    intro out h
    simp only [projection] at h
    cases h
    rfl
  | cons t rest ih =>
    intro out h
    simp only [projection] at h
    cases hp : projectTuple sch t names with
    | error e => rw [hp] at h; cases h
    | ok pt =>
      rw [hp] at h
      cases hr : projection sch rest names with
      | error e => rw [hr] at h; cases h
      | ok out2 =>
        rw [hr] at h
        cases h
        simp [projectTuple_ok sch t names pt hp, ih out2 hr]

/-- C7 counterexample: the claim demands `FieldNotFound` whenever a
requested name is absent from the schema, but name resolution happens
inside the per-tuple loop, so projecting an empty store through an unknown
name succeeds with an empty output instead of failing. -/
theorem C7_counterexample : projection ["a"] [] ["b"] = .ok [] := rfl

/-- C7 (amended): a successful projection emits exactly one output tuple per
input tuple, in input order, each holding exactly the requested fields in
the requested order; and when the input store is non-empty, an absent
requested name makes the call fail with `FieldNotFound` (resolution being
per tuple, an empty store succeeds vacuously). -/
theorem C7_projection :
    (∀ (sch : TupleDesc) (ts : List Tuple) (names : List String) (out : List Tuple),
       projection sch ts names = .ok out →
       out.length = ts.length ∧
       out = ts.map (fun t => names.map (fun n => get_field t ((index_of sch n).getD 0)))) ∧
    (∀ (sch : TupleDesc) (t : Tuple) (ts : List Tuple) (names : List String),
       (∃ n ∈ names, index_of sch n = none) →
       projection sch (t :: ts) names = .error .FieldNotFound) := by
  constructor
  · intro sch ts names out h
    have hout := projection_ok_eq sch names ts out h
    exact ⟨by rw [hout, List.length_map], hout⟩
  · intro sch t ts names habs
    simp [projection, projectTuple_absent sch t names habs]

/-- C7 witness: a concrete successful projection and a concrete failing one. -/
theorem C7_projection_witness :
    ([[field_t.strF "u"]] : List Tuple).length =
        ([[field_t.intF 7, field_t.strF "u"]] : List Tuple).length ∧
    [[field_t.strF "u"]] =
      ([[field_t.intF 7, field_t.strF "u"]] : List Tuple).map
        (fun t => ["b"].map (fun n => get_field t ((index_of ["a", "b"] n).getD 0))) ∧
    projection ["a", "b"] [[field_t.intF 7, field_t.strF "u"]] ["c"]
      = .error .FieldNotFound := by
  have h1 := C7_projection.1 ["a", "b"] [[field_t.intF 7, field_t.strF "u"]] ["b"]
    [[field_t.strF "u"]] rfl
  have h2 := C7_projection.2 ["a", "b"] [field_t.intF 7, field_t.strF "u"] [] ["c"]
    ⟨"c", List.mem_singleton.mpr rfl, rfl⟩
  exact ⟨h1.1, h1.2, h2⟩

/-- C10 witness: a failing first clause short-circuits past a second clause
naming an absent field, and the empty store never resolves names. -/
theorem C10_short_circuit_resolution_witness :
    filter ["x"] []
      [⟨"missing", PredicateOp.EQ, field_t.intF 0⟩] = .ok [] ∧
    matchTuple ["x"] [field_t.intF 1]
      ([⟨"x", PredicateOp.EQ, field_t.intF 2⟩] ++
        [⟨"missing", PredicateOp.EQ, field_t.intF 0⟩]) = .ok false ∧
    filter ["x"] [[field_t.intF 1]]
      ([⟨"x", PredicateOp.EQ, field_t.intF 2⟩] ++
        [⟨"missing", PredicateOp.EQ, field_t.intF 0⟩]) = .ok [] :=
  ⟨C10_short_circuit_resolution.1 ["x"] [⟨"missing", PredicateOp.EQ, field_t.intF 0⟩],
   C10_short_circuit_resolution.2.1 ["x"] [field_t.intF 1]
     [⟨"x", PredicateOp.EQ, field_t.intF 2⟩]
     [⟨"missing", PredicateOp.EQ, field_t.intF 0⟩] rfl,
   C10_short_circuit_resolution.2.2 ["x"] [[field_t.intF 1]]
     [⟨"x", PredicateOp.EQ, field_t.intF 2⟩]
     [⟨"missing", PredicateOp.EQ, field_t.intF 0⟩]
     (fun t ht => by cases ht with
       | head => rfl
       | tail _ h => exact absurd h (List.not_mem_nil t))⟩

theorem joinEQ_eq_map (left right : List Tuple) (li ri : Nat) :
    joinEQ left right li ri =
      (eqPairs left right li ri).map (fun p => p.1 ++ p.2.eraseIdx ri) := by
  simp only [joinEQ, eqPairs, List.map_flatMap, List.map_map]
  rfl

theorem eqPairs_head_count (li : Nat) (tr : Tuple) (ri : Nat) (k : field_t) :
    ∀ left : List Tuple,
      (((left.filter (fun tl => get_field tl li = get_field tr ri)).map
          (fun tl => (tl, tr))).filter (fun p => get_field p.1 li = k)).length =
        if get_field tr ri = k then
          (left.filter (fun tl => get_field tl li = k)).length
        else 0 := by
  intro left
  induction left with
  | nil => simp
  | cons tl rest ih =>
    by_cases h1 : get_field tl li = get_field tr ri
    · by_cases h2 : get_field tr ri = k
      · simp only [h2] at ih
        simp [List.filter_cons, h1, h2, h1.trans h2, ih]
      · simp [List.filter_cons, h1, h2, ih]
    · by_cases h2 : get_field tr ri = k
      · have h3 : ¬ (get_field tl li = k) := fun hk => h1 (hk.trans h2.symm)
        simp only [h2] at ih
        simp [List.filter_cons, h1, h2, h3, ih]
      · simp [List.filter_cons, h1, h2, ih]

theorem eqPairs_count (left : List Tuple) (li ri : Nat) (k : field_t) :
    ∀ right : List Tuple,
      ((eqPairs left right li ri).filter (fun p => get_field p.1 li = k)).length =
        (left.filter (fun tl => get_field tl li = k)).length *
        (right.filter (fun tr => get_field tr ri = k)).length := by
  intro right
  induction right with
  | nil => simp [eqPairs]
  | cons tr rest ih =>
    simp only [eqPairs, List.flatMap_cons, List.filter_append, List.length_append] at *
    rw [eqPairs_head_count li tr ri k left, ih]
    by_cases h : get_field tr ri = k
    · simp [List.filter_cons, h, Nat.mul_succ]
      omega
    · simp [List.filter_cons, h]

/-- C5: an equality join (predicate operator `EQ`) emits, for each
qualifying (left, right) pair, the left fields in order followed by the
right fields in order minus the right join field; the qualifying pairs for
a key shared by N left tuples and M right tuples number exactly N·M, with
one output tuple per pair (no deduplication). -/
theorem C5_equality_join (lsch rsch : TupleDesc) (left right : List Tuple)
    (n1 n2 : String) (li ri : Nat)
    (h1 : index_of lsch n1 = some li) (h2 : index_of rsch n2 = some ri) :
    join lsch rsch left right ⟨n1, PredicateOp.EQ, n2⟩ = .ok (joinEQ left right li ri) ∧
    (∀ t ∈ joinEQ left right li ri, ∃ tl ∈ left, ∃ tr ∈ right,
        get_field tl li = get_field tr ri ∧ t = tl ++ tr.eraseIdx ri) ∧
    (joinEQ left right li ri).length = (eqPairs left right li ri).length ∧
    (∀ k, ((eqPairs left right li ri).filter (fun p => get_field p.1 li = k)).length =
        (left.filter (fun tl => get_field tl li = k)).length *
        (right.filter (fun tr => get_field tr ri = k)).length) := by
  refine ⟨by simp [join, h1, h2], ?_, ?_, fun k => eqPairs_count left li ri k right⟩
  · intro t ht
    simp only [joinEQ, List.mem_flatMap, List.mem_map, List.mem_filter,
      decide_eq_true_eq] at ht
    obtain ⟨tr, htr, tl, ⟨htl, hkey⟩, hcomb⟩ := ht
    exact ⟨tl, htl, tr, htr, hkey, hcomb.symm⟩
  · rw [joinEQ_eq_map, List.length_map]

/-- C5 witness: the equality strategy on concrete one-field stores. -/
theorem C5_equality_join_witness :
    join ["k"] ["k"] [[field_t.intF 1]] [[field_t.intF 1], [field_t.intF 3]]
        ⟨"k", PredicateOp.EQ, "k"⟩
      = .ok (joinEQ [[field_t.intF 1]] [[field_t.intF 1], [field_t.intF 3]] 0 0) :=
  (C5_equality_join ["k"] ["k"] [[field_t.intF 1]] [[field_t.intF 1], [field_t.intF 3]]
    "k" "k" 0 0 rfl rfl).1

theorem length_filter_split {α : Type} (p : α → Bool) (l : List α) :
    (l.filter (fun a => !(p a))).length + (l.filter p).length = l.length := by
  induction l with
  | nil => rfl
  | cons a rest ih =>
    by_cases h : p a = true <;> simp [List.filter_cons, h] <;> omega

theorem joinNE_length (li ri : Nat) (right : List Tuple) :
    ∀ left : List Tuple,
      (joinNE left right li ri).length + (eqAllPairs left right li ri).length =
        left.length * right.length := by
  intro left
  induction left with
  | nil => simp [joinNE, eqAllPairs]
  | cons tl rest ih =>
    simp only [joinNE, eqAllPairs, List.flatMap_cons, List.length_append,
      List.length_map, List.length_cons] at *
    have hsplit : (right.filter
          (fun tr => decide (¬ (get_field tl li = get_field tr ri)))).length +
        (right.filter (fun tr => decide (get_field tl li = get_field tr ri))).length =
        right.length := by
      simpa [decide_not] using
        length_filter_split (fun tr => decide (get_field tl li = get_field tr ri)) right
    have hmul : (rest.length + 1) * right.length =
        rest.length * right.length + right.length := Nat.succ_mul _ _
    omega

/-- C6: an inequality join (predicate operator `NE`) emits one combined
tuple — all left fields followed by all right fields, join field retained —
per (left, right) pair with differing join-field values, so the output
cardinality is L·R minus the number of equal-key pairs. -/
theorem C6_inequality_join (lsch rsch : TupleDesc) (left right : List Tuple)
    (n1 n2 : String) (li ri : Nat)
    (h1 : index_of lsch n1 = some li) (h2 : index_of rsch n2 = some ri) :
    join lsch rsch left right ⟨n1, PredicateOp.NE, n2⟩ = .ok (joinNE left right li ri) ∧
    (∀ t ∈ joinNE left right li ri, ∃ tl ∈ left, ∃ tr ∈ right,
        ¬ (get_field tl li = get_field tr ri) ∧ t = tl ++ tr) ∧
    (joinNE left right li ri).length + (eqAllPairs left right li ri).length =
      left.length * right.length ∧
    (joinNE left right li ri).length =
      left.length * right.length - (eqAllPairs left right li ri).length := by
  have hlen := joinNE_length li ri right left
  refine ⟨by simp [join, h1, h2], ?_, hlen, by omega⟩
  intro t ht
  simp only [joinNE, List.mem_flatMap, List.mem_map, List.mem_filter,
    decide_not, Bool.not_eq_eq_eq_not, Bool.not_true, decide_eq_false_iff_not] at ht
  obtain ⟨tl, htl, tr, ⟨htr, hkey⟩, hcomb⟩ := ht
  exact ⟨tl, htl, tr, htr, hkey, hcomb.symm⟩

/-- C6 witness: the inequality strategy on concrete one-field stores. -/
theorem C6_inequality_join_witness :
    join ["k"] ["k"] [[field_t.intF 1], [field_t.intF 2]]
        [[field_t.intF 1], [field_t.intF 3]] ⟨"k", PredicateOp.NE, "k"⟩
      = .ok (joinNE [[field_t.intF 1], [field_t.intF 2]]
          [[field_t.intF 1], [field_t.intF 3]] 0 0) :=
  (C6_inequality_join ["k"] ["k"] [[field_t.intF 1], [field_t.intF 2]]
    [[field_t.intF 1], [field_t.intF 3]] "k" "k" 0 0 rfl rfl).1

/-- C9: a join whose predicate operator is neither `EQ` nor `NE` fails with
`UnsupportedJoinPredicate` (once the join fields resolve), and an absent
left or right join-field name fails with `FieldNotFound` under either
strategy (both names are resolved before the strategy dispatch). -/
theorem C9_join_errors (lsch rsch : TupleDesc) (left right : List Tuple)
    (n1 n2 : String) (op : PredicateOp) :
    (∀ li ri, index_of lsch n1 = some li → index_of rsch n2 = some ri →
       ¬ op = PredicateOp.EQ → ¬ op = PredicateOp.NE →
       join lsch rsch left right ⟨n1, op, n2⟩ = .error .UnsupportedJoinPredicate) ∧
    (index_of lsch n1 = none →
       join lsch rsch left right ⟨n1, op, n2⟩ = .error .FieldNotFound) ∧
    (∀ li, index_of lsch n1 = some li → index_of rsch n2 = none →
       join lsch rsch left right ⟨n1, op, n2⟩ = .error .FieldNotFound) := by
  refine ⟨?_, ?_, ?_⟩
  · intro li ri hli hri hne hnn
    cases op <;> simp_all [join]
  · intro hnone
    simp [join, hnone]
  · intro li hli hnone
    simp [join, hli, hnone]

/-- C9 witness: a `LT` join predicate and absent join fields, concretely. -/
theorem C9_join_errors_witness :
    join ["k"] ["k"] [] [] ⟨"k", PredicateOp.LT, "k"⟩
      = .error .UnsupportedJoinPredicate ∧
    join ["k"] ["k"] [] [] ⟨"zzz", PredicateOp.EQ, "k"⟩
      = .error .FieldNotFound ∧
    join ["k"] ["k"] [] [] ⟨"k", PredicateOp.EQ, "zzz"⟩
      = .error .FieldNotFound :=
  ⟨(C9_join_errors ["k"] ["k"] [] [] "k" "k" PredicateOp.LT).1 0 0 rfl rfl
      (by simp) (by simp),
   (C9_join_errors ["k"] ["k"] [] [] "zzz" "k" PredicateOp.EQ).2.1 rfl,
   (C9_join_errors ["k"] ["k"] [] [] "k" "zzz" PredicateOp.EQ).2.2 0 rfl rfl⟩

theorem lookupA_updateA_same {α : Type} (k : field_t) (f : Option α → α) :
    ∀ l : List (field_t × α), lookupA (updateA l k f) k = some (f (lookupA l k)) := by
  intro l
  induction l with
  | nil => simp [updateA, lookupA]
  | cons p rest ih =>
    obtain ⟨k2, v⟩ := p
    by_cases h : k2 = k
    · simp [updateA, lookupA, h]
    · simp [updateA, lookupA, h, ih]

theorem lookupA_updateA_other {α : Type} (k k2 : field_t) (f : Option α → α)
    (hk : ¬ k2 = k) :
    ∀ l : List (field_t × α), lookupA (updateA l k f) k2 = lookupA l k2 := by
  have hk2 : ¬ k = k2 := fun h => hk h.symm
  intro l
  induction l with
  | nil => simp [updateA, lookupA, hk2]
  | cons p rest ih =>
    obtain ⟨k3, v⟩ := p
    by_cases h : k3 = k
    · have h3 : ¬ k3 = k2 := fun he => hk (he.symm.trans h)
      simp [updateA, lookupA, h, h3, hk2]
    · by_cases h2 : k3 = k2 <;> simp [updateA, lookupA, h, h2, hk, ih]

theorem mem_keys_updateA {α : Type} (k k2 : field_t) (f : Option α → α) :
    ∀ l : List (field_t × α),
      k2 ∈ (updateA l k f).map Prod.fst → k2 ∈ l.map Prod.fst ∨ k2 = k := by
  intro l
  induction l with
  | nil => simp [updateA]
  | cons p rest ih =>
    obtain ⟨k3, v⟩ := p
    by_cases h : k3 = k
    · simp only [updateA, if_pos h]
      intro hm
      exact Or.inl hm
    · intro hm
      rw [updateA] at hm
      simp only [if_neg h, List.map_cons, List.mem_cons] at hm
      cases hm with
      | inl he => exact Or.inl (by simp [he])
      | inr hm2 =>
        cases ih hm2 with
        | inl h3 => exact Or.inl (by simp [h3])
        | inr h3 => exact Or.inr h3

theorem updateA_nodup {α : Type} (k : field_t) (f : Option α → α) :
    ∀ l : List (field_t × α),
      (l.map Prod.fst).Nodup → ((updateA l k f).map Prod.fst).Nodup := by
  intro l
  induction l with
  | nil => simp [updateA]
  | cons p rest ih =>
    obtain ⟨k3, v⟩ := p
    intro hnd
    rw [List.map_cons, List.nodup_cons] at hnd
    by_cases h : k3 = k
    · rw [updateA, if_pos h, List.map_cons, List.nodup_cons]
      exact hnd
    · rw [updateA, if_neg h, List.map_cons, List.nodup_cons]
      refine ⟨fun hm => ?_, ih hnd.2⟩
      cases mem_keys_updateA k k3 f rest hm with
      | inl h3 => exact hnd.1 h3
      | inr h3 => exact h h3

theorem lookupA_of_mem_nodup {α : Type} (k : field_t) (v : α) :
    ∀ l : List (field_t × α),
      (l.map Prod.fst).Nodup → (k, v) ∈ l → lookupA l k = some v := by
  intro l
  induction l with
  | nil => intro _ hm; exact absurd hm (List.not_mem_nil _)
  | cons p rest ih =>
    obtain ⟨k2, w⟩ := p
    intro hnd hm
    rw [List.map_cons, List.nodup_cons] at hnd
    cases hm with
    | head => simp [lookupA]
    | tail _ hm2 =>
      by_cases h : k2 = k
      · subst h
        exact absurd (List.mem_map_of_mem Prod.fst hm2) hnd.1
      · simp [lookupA, h, ih hnd.2 hm2]

theorem aggLoop_sum_grouped (fi gi : Nat) :
    ∀ (ts : List Tuple) (st st' : AggState),
      aggLoop .SUM fi (some gi) ts st = .ok st' →
      ((st.groupResults.map Prod.fst).Nodup → (st'.groupResults.map Prod.fst).Nodup) ∧
      ∀ k, (lookupA st'.groupResults k).getD 0 =
        (lookupA st.groupResults k).getD 0 + groupSum fi gi k ts := by
  intro ts
  induction ts with
  | nil =>
    intro st st' h
    simp only [aggLoop] at h
    cases h
    exact ⟨id, fun k => by simp [groupSum, sumR]⟩
  | cons t ts2 ih =>
    intro st st' h
    simp only [aggLoop, aggStep] at h
    cases hv : toNumeric (get_field t fi) with
    | error e => rw [hv] at h; cases h
    | ok v =>
      rw [hv] at h
      obtain ⟨hnd2, hsum2⟩ := ih _ st' h
      constructor
      · intro hnd
        exact hnd2 (updateA_nodup (get_field t gi) _ st.groupResults hnd)
      · intro k
        rw [hsum2 k]
        by_cases hk : k = get_field t gi
        · subst hk
          rw [lookupA_updateA_same]
          have hval : numValue fi t = v := by simp [numValue, hv]
          simp [groupSum, List.filter_cons, hval, sumR, add_assoc]
        · rw [lookupA_updateA_other _ _ _ hk]
          have hfilter : get_field t gi = k ↔ False := by
            constructor
            · intro h2; exact hk h2.symm
            · intro h2; exact absurd h2 (by simp)
          simp [groupSum, List.filter_cons, hfilter]

theorem finalizeGrouped_sum (st : AggState) :
    finalizeGrouped .SUM st = st.groupResults.map (fun p => [p.1, field_t.dblF p.2]) :=
  rfl

theorem aggLoop_sumavg_global (op : AggregateOp) (hop : op = .SUM ∨ op = .AVG) (fi : Nat) :
    ∀ (ts : List Tuple) (vs : List Rat) (st : AggState), numValues fi ts = .ok vs →
      aggLoop op fi none ts st =
        .ok { st with globalResult := st.globalResult + sumR vs,
                      globalCount := st.globalCount + vs.length,
                      hasValues := st.hasValues || !ts.isEmpty } := by
  intro ts
  induction ts with
  | nil =>
    intro vs st h
    simp only [numValues] at h
    cases h
    simp [aggLoop, sumR]
  | cons t ts2 ih =>
    intro vs st h
    simp only [numValues] at h
    cases hv : toNumeric (get_field t fi) with
    | error e => rw [hv] at h; cases h
    | ok v =>
      rw [hv] at h
      cases hr : numValues fi ts2 with
      | error e => rw [hr] at h; cases h
      | ok vs2 =>
        rw [hr] at h
        cases h
        rcases hop with h1 | h1 <;> subst h1 <;>
          simp only [aggLoop, aggStep, hv] <;>
          rw [ih vs2 _ hr] <;>
          simp [sumR, add_assoc, List.length_cons] <;>
          omega

theorem aggLoop_min_global (fi : Nat) :
    ∀ (ts : List Tuple) (vs : List Rat) (st : AggState), numValues fi ts = .ok vs →
      aggLoop .MIN fi none ts st =
        .ok { st with minResult := vs.foldl optMin st.minResult,
                      hasValues := st.hasValues || !ts.isEmpty } := by
  intro ts
  induction ts with
  | nil =>
    intro vs st h
    simp only [numValues] at h
    cases h
    simp [aggLoop]
  | cons t ts2 ih =>
    intro vs st h
    simp only [numValues] at h
    cases hv : toNumeric (get_field t fi) with
    | error e => rw [hv] at h; cases h
    | ok v =>
      rw [hv] at h
      cases hr : numValues fi ts2 with
      | error e => rw [hr] at h; cases h
      | ok vs2 =>
        rw [hr] at h
        cases h
        simp only [aggLoop, aggStep, hv]
        rw [ih vs2 _ hr]
        simp [optMin, List.foldl_cons]

theorem aggLoop_max_global (fi : Nat) :
    ∀ (ts : List Tuple) (vs : List Rat) (st : AggState), numValues fi ts = .ok vs →
      aggLoop .MAX fi none ts st =
        .ok { st with maxResult := vs.foldl optMax st.maxResult,
                      hasValues := st.hasValues || !ts.isEmpty } := by
  intro ts
  induction ts with
  | nil =>
    intro vs st h
    simp only [numValues] at h
    cases h
    simp [aggLoop]
  | cons t ts2 ih =>
    intro vs st h
    simp only [numValues] at h
    cases hv : toNumeric (get_field t fi) with
    | error e => rw [hv] at h; cases h
    | ok v =>
      rw [hv] at h
      cases hr : numValues fi ts2 with
      | error e => rw [hr] at h; cases h
      | ok vs2 =>
        rw [hr] at h
        cases h
        simp only [aggLoop, aggStep, hv]
        rw [ih vs2 _ hr]
        simp [optMax, List.foldl_cons]

/-- C1: the claim says every aggregate operator, COUNT included, emits in
the grouped path exactly one row per distinct group value of a non-empty
input; but the accumulation for grouped COUNT writes only `groupCounts`
while finalization iterates `groupResults`, so a grouped COUNT emits zero
rows on a non-empty store — the finalization's own COUNT arm
(`outputValue = groupCounts[groupKey]`) is unreachable dead code, so the
claim reflects the intent and the code is a slip.  This theorem evaluates
the embedded code at the failing input. -/
theorem C1_grouped_count_emits_no_rows :
    aggregate ["g", "v"] [[field_t.strF "A", field_t.intF 1]]
      ⟨"v", AggregateOp.COUNT, some "g"⟩ = .ok [] := rfl

/-- C3: non-grouped aggregation always emits exactly one one-field tuple —
on an empty store with default value 0 for every operator (a floating-point
0 for AVG, an integer 0 otherwise) — whereas grouped aggregation over an
empty store emits zero tuples. -/
theorem C3_nongrouped_one_row :
    (∀ (sch : TupleDesc) (f : String) (fi : Nat) (op : AggregateOp),
       index_of sch f = some fi →
       aggregate sch [] ⟨f, op, none⟩ = .ok [[emptyDefault op]]) ∧
    (∀ op, emptyDefault op = field_t.intF 0 ∨ emptyDefault op = field_t.dblF 0) ∧
    (∀ (sch : TupleDesc) (ts : List Tuple) (f : String) (op : AggregateOp)
       (out : List Tuple), aggregate sch ts ⟨f, op, none⟩ = .ok out →
       ∃ fv, out = [[fv]]) ∧
    (∀ (sch : TupleDesc) (f g : String) (fi gi : Nat) (op : AggregateOp),
       index_of sch f = some fi → index_of sch g = some gi →
       aggregate sch [] ⟨f, op, some g⟩ = .ok []) := by
  refine ⟨?_, ?_, ?_, ?_⟩
  · intro sch f fi op hix
    cases op <;> simp [aggregate, hix, aggLoop, finalizeGlobal, initAgg, emptyDefault] <;> rfl
  · intro op
    cases op <;> simp [emptyDefault]
  · intro sch ts f op out h
    simp only [aggregate] at h
    cases hix : index_of sch f with
    | none => simp [hix] at h
    | some fi =>
      simp only [hix] at h
      cases hl : aggLoop op fi none ts initAgg with
      | error e => simp [hl] at h
      | ok st =>
        simp only [hl, Except.ok.injEq] at h
        exact ⟨finalizeGlobal op st, h.symm⟩
  · intro sch f g fi gi op hf hg
    simp [aggregate, hf, hg, aggLoop, finalizeGrouped, initAgg]

/-- C3 witness: the empty-store behaviors and the one-row shape at concrete
inputs. -/
theorem C3_nongrouped_one_row_witness :
    aggregate ["v"] [] ⟨"v", AggregateOp.AVG, none⟩ = .ok [[emptyDefault AggregateOp.AVG]] ∧
    (∃ fv, ([[field_t.intF ((0 : Int) + 1)]] : List Tuple) = [[fv]]) ∧
    aggregate ["g", "v"] [] ⟨"v", AggregateOp.SUM, some "g"⟩ = .ok [] :=
  ⟨C3_nongrouped_one_row.1 ["v"] "v" 0 AggregateOp.AVG rfl,
   C3_nongrouped_one_row.2.2.1 ["v"] [[field_t.intF 2]] "v" AggregateOp.COUNT
     [[field_t.intF ((0 : Int) + 1)]] rfl,
   C3_nongrouped_one_row.2.2.2 ["g", "v"] "v" "g" 1 0 AggregateOp.SUM rfl rfl⟩

/-- C4: non-grouped SUM, MIN and MAX truncate their (rational, standing for
floating-point) result to an integer field, while non-grouped AVG emits
sum/count untruncated as a floating-point field, and grouped SUM emits the
raw accumulated group sum untruncated as a floating-point field. -/
theorem C4_truncation_asymmetry :
    (∀ (sch : TupleDesc) (ts : List Tuple) (f : String) (fi : Nat) (vs : List Rat),
       index_of sch f = some fi → numValues fi ts = .ok vs →
       aggregate sch ts ⟨f, AggregateOp.SUM, none⟩
           = .ok [[field_t.intF (ratTrunc (sumR vs))]] ∧
       aggregate sch ts ⟨f, AggregateOp.AVG, none⟩
           = .ok [[field_t.dblF
               (if 0 < vs.length then sumR vs / (vs.length : Rat) else 0)]] ∧
       aggregate sch ts ⟨f, AggregateOp.MIN, none⟩
           = .ok [[field_t.intF
               (match vs.foldl optMin none with | some m => ratTrunc m | none => 0)]] ∧
       aggregate sch ts ⟨f, AggregateOp.MAX, none⟩
           = .ok [[field_t.intF
               (match vs.foldl optMax none with | some m => ratTrunc m | none => 0)]]) ∧
    (∀ (sch : TupleDesc) (ts : List Tuple) (f g : String) (fi gi : Nat) (st : AggState),
       index_of sch f = some fi → index_of sch g = some gi →
       aggLoop AggregateOp.SUM fi (some gi) ts initAgg = .ok st →
       aggregate sch ts ⟨f, AggregateOp.SUM, some g⟩
           = .ok (st.groupResults.map (fun p => [p.1, field_t.dblF p.2])) ∧
       ∀ p ∈ st.groupResults, p.2 = groupSum fi gi p.1 ts) := by
  constructor
  · intro sch ts f fi vs hix hvs
    refine ⟨?_, ?_, ?_, ?_⟩
    · simp only [aggregate, hix]
      rw [aggLoop_sumavg_global AggregateOp.SUM (Or.inl rfl) fi ts vs initAgg hvs]
      simp [finalizeGlobal, initAgg]
    · simp only [aggregate, hix]
      rw [aggLoop_sumavg_global AggregateOp.AVG (Or.inr rfl) fi ts vs initAgg hvs]
      simp [finalizeGlobal, initAgg, Nat.cast_pos]
    · simp only [aggregate, hix]
      rw [aggLoop_min_global fi ts vs initAgg hvs]
      simp [finalizeGlobal, initAgg]
    · simp only [aggregate, hix]
      rw [aggLoop_max_global fi ts vs initAgg hvs]
      simp [finalizeGlobal, initAgg]
  · intro sch ts f g fi gi st hf hg hloop
    obtain ⟨hnd, hsum⟩ := aggLoop_sum_grouped fi gi ts initAgg st hloop
    constructor
    · simp [aggregate, hf, hg, hloop, finalizeGrouped_sum]
    · intro p hp
      have hnd2 : (st.groupResults.map Prod.fst).Nodup := hnd (by simp [initAgg])
      have hl := lookupA_of_mem_nodup p.1 p.2 st.groupResults hnd2 hp
      have := hsum p.1
      rw [hl] at this
      simpa [initAgg, lookupA] using this

/-- C4 witness: SUM over the single floating-point value 3/2 truncates to
the integer 1 in the non-grouped path but survives raw in the grouped path. -/
theorem C4_truncation_asymmetry_witness :
    aggregate ["v"] [[field_t.dblF (3 / 2)]] ⟨"v", AggregateOp.SUM, none⟩
        = .ok [[field_t.intF (ratTrunc (sumR [3 / 2]))]] ∧
    aggregate ["g", "v"] [[field_t.strF "A", field_t.dblF (3 / 2)]]
        ⟨"v", AggregateOp.SUM, some "g"⟩
      = .ok ([(field_t.strF "A", (0 : Rat) + 3 / 2)].map
          (fun p => [p.1, field_t.dblF p.2])) :=
  ⟨(C4_truncation_asymmetry.1 ["v"] [[field_t.dblF (3 / 2)]] "v" 0 [3 / 2] rfl rfl).1,
   ((C4_truncation_asymmetry.2 ["g", "v"] [[field_t.strF "A", field_t.dblF (3 / 2)]]
      "v" "g" 1 0
      ⟨[(field_t.strF "A", (0 : Rat) + 3 / 2)], [(field_t.strF "A", (0 : Int) + 1)],
        0, 0, none, none, true⟩ rfl rfl rfl).1)⟩

end db
